import Mathlib

/-!
Shallow embedding of `src/flatnotes/flatnotes.py` (the flatnotes core:
tag extraction, index synchronization, search preprocessing/ordering,
result assembly).

Modelling conventions:
* Python strings are `List Char` (`Str` below); the character classes `\w`
  and `\s` of Python's `re` module are modelled over ASCII
  (`[A-Za-z0-9_]` and the six ASCII whitespace characters), which is the
  range exercised by the spec and the claims.
* The filesystem (the "note store") is a list of markdown files, each with
  its subdirectory components relative to the notes root, its basename,
  its content and its modification time.  `glob.glob(dir + "/**/*.md",
  recursive=True)` is the listing itself (glob skips the hidden
  `.flatnotes` index directory, so the index data never appears in it).
* Modification times (`os.path.getmtime` / `datetime.fromtimestamp`) are
  natural numbers; only their equality/ordering is used by the source.
* The whoosh library is an external collaborator; its operations are
  modelled from its documented behaviour as cited by the source's own
  comments and docstrings (see each definition's comment).
* Fallible Python code (exceptions) returns `Except PyErr`.
-/

namespace Flatnotes

abbrev Str := List Char

/-- ASCII model of Python's regex class `\w`: letters, digits, underscore. -/
def wordChar (c : Char) : Bool :=
  c.isAlphanum || c = '_'

/-- ASCII model of Python's regex class `\s` / `str.strip()` whitespace:
space, tab, newline, carriage return, vertical tab, form feed. -/
def wsChar (c : Char) : Bool :=
  c = ' ' || c = '\t' || c = '\n' || c = '\r' || c = '\x0b' || c = '\x0c'

/-- Python `str.strip()`: remove leading and trailing whitespace. -/
def pyStrip (s : Str) : Str :=
  ((s.dropWhile wsChar).reverse.dropWhile wsChar).reverse

/-- Python `str.lower()` (ASCII model). -/
def pyLower (s : Str) : Str :=
  s.map Char.toLower

/-- The scanner state of Python's `re.sub` position scan for the pattern
`TAGS_RE = r"(?:(?<=^#)|(?<=\s#))\w+(?=\s|$)"` (src/flatnotes/flatnotes.py
line 178).  The lookbehinds refer to the characters of the original string
just before the current position, so the scan is a character automaton:

* `boundary`  — the previous character is the start of the string or
  whitespace (a `#` seen here can open a match at the next position);
* `afterHash` — the previous character is a `#` itself preceded by
  start-of-string or whitespace (a word run starting here is a candidate
  match, pending the `(?=\s|$)` lookahead);
* `plain`     — any other previous character (no match can start here);
* `run acc`   — a candidate word run is being collected (`acc` holds its
  characters in reverse); it becomes a match exactly when it ends at
  whitespace or at the end of the string (the regex's `\w+` is greedy and
  shorter backtracks are always rejected by the lookahead, since the
  character ending the run is never whitespace). -/
inductive TagScanState where
  | boundary : TagScanState
  | afterHash : TagScanState
  | plain : TagScanState
  | run (acc : Str) : TagScanState

deriving DecidableEq, Repr

/-- The scanner state after emitting character `c` unmatched, given the
state `st` it was read in (tracks the two-character lookbehind). -/
def tagNextState (st : TagScanState) (c : Char) : TagScanState :=
  if wsChar c then .boundary
  else if c = '#' && st matches .boundary then .afterHash
  else .plain

/-- `re.sub` scan for `TAGS_RE`, returning the text with each match
replaced by the empty string together with the list of matched values in
order.  This is the combination applied by `extract_tags` of the missing
helper with the source's regex; see `reExtractTags` below. -/
def tagScan : TagScanState → Str → Str × List Str
  | .run acc, [] => ([], [acc.reverse])
  | _, [] => ([], [])
  | .run acc, c :: l =>
    if wordChar c then tagScan (.run (c :: acc)) l
    else if wsChar c then
      -- lookahead `(?=\s)` succeeds: the run is a match and is removed;
      -- the scan resumes at the whitespace character.
      let (txt, ms) := tagScan .boundary l
      (c :: txt, acc.reverse :: ms)
    else
      -- lookahead fails (and all shorter runs fail it too): no match;
      -- the run's characters and `c` are emitted unchanged.
      let (txt, ms) := tagScan .plain l
      (acc.reverse ++ c :: txt, ms)
  | .afterHash, c :: l =>
    if wordChar c then tagScan (.run [c]) l
    else
      let (txt, ms) := tagScan (tagNextState .afterHash c) l
      (c :: txt, ms)
  | st, c :: l =>
    let (txt, ms) := tagScan (tagNextState st c) l
    (c :: txt, ms)

/-- Modelled from the spec: `re_extract` from the repository's `helpers`
module (imported at src line 19; the file is not under `src/`), applied to
the `TAGS_RE` pattern.  §4.1 of the spec: the output is "a pair — content
with all matched tag tokens removed, and the set of matched tokens";
i.e. a `re.sub` of the pattern by the empty string that also collects the
value of every match, in order.  The scan starts at the beginning of the
string (`boundary` state). -/
def reExtractTags (content : Str) : Str × List Str :=
  tagScan .boundary content

/-- `Flatnotes.extract_tags` (src lines 214-225): strip the tags from the
content and return the remaining content together with the set of tags
converted to lowercase.  (The `except IndexError` branch of the source
guards a list comprehension that cannot raise `IndexError`; it is dead
code and has no counterpart here.) -/
def extract_tags (content : Str) : Str × Finset Str :=
  let (content_ex_tags, tags) := reExtractTags content
  (content_ex_tags, (tags.map pyLower).toFinset)

/-- The scanner state of Python's `re.sub` position scan for the pattern
`TAGS_WITH_HASH_RE = r"(?:(?<=^)|(?<=\s))#\w+(?=\s|$)"`
(src/flatnotes/flatnotes.py line 179).  A match can start only where the
previous character is the start of the string or whitespace (`norm true`);
after such a `#`, a word run is collected (`hash acc`, characters in
reverse) and rewritten exactly when it is nonempty and ends at whitespace
or end-of-string (the greedy `\w+`'s shorter backtracks all fail the
lookahead, since the character ending the run is never whitespace). -/
inductive HashScanState where
  | norm (boundary : Bool) : HashScanState
  | hash (acc : Str) : HashScanState

deriving DecidableEq, Repr

/-- What a candidate `#`-run contributes to the output when it ends at
whitespace or end-of-string: `#` alone (no word character followed, no
match) stays, a nonempty run `#w` is a match and is replaced by the
rewrite `tags:w` (the replacement function of src line 303:
`"tags:" + tag.group(0)[1:]`). -/
def hashRunOut (acc : Str) : Str :=
  if acc.isEmpty then ['#'] else "tags:".toList ++ acc.reverse

/-- `re.sub` scan for `TAGS_WITH_HASH_RE` with the replacement function of
`pre_process_search_term` (src lines 301-305): each match `#name` is
replaced by `tags:name`; everything else is copied. -/
def hashSub : HashScanState → Str → Str
  | .norm _, [] => []
  | .hash acc, [] => hashRunOut acc
  | .norm b, c :: l =>
    if c = '#' && b then hashSub (.hash []) l
    else c :: hashSub (.norm (wsChar c)) l
  | .hash acc, c :: l =>
    if wordChar c then hashSub (.hash (c :: acc)) l
    else if wsChar c then hashRunOut acc ++ c :: hashSub (.norm true) l
    else
      -- lookahead fails: no match; `#`, the run and `c` are copied, and no
      -- match can start before the next whitespace.
      '#' :: acc.reverse ++ c :: hashSub (.norm false) l

/-- `Flatnotes.pre_process_search_term` (src lines 298-306): strip the
term, then replace every `#tagname` at the pattern's boundaries with
`tags:tagname`. -/
def pre_process_search_term (term : Str) : Str :=
  hashSub (.norm true) (pyStrip term)

/-- Following the spec's words (§4.3 with the boundary rule of §4.1), for
comparison with `pre_process_search_term`: cut the string into maximal
whitespace-free tokens separated by whitespace; a token consisting of `#`
followed by one or more word characters becomes the field-qualified form
`tags:<name>`; every other token, and all whitespace, is left untouched.
`specRewriteToken` rewrites one token. -/
def specRewriteToken (tok : Str) : Str :=
  match tok with
  | '#' :: w => if !w.isEmpty && w.all wordChar then "tags:".toList ++ w else tok
  | _ => tok

/-- Following the spec's words (§4.3): walk the string accumulating the
current token (in reverse); at each whitespace character and at the end,
emit the rewritten token.  `specHashRewrite [] s` is the spec's rewrite
of `s`. -/
def specHashRewrite (acc : Str) : Str → Str
  | [] => specRewriteToken acc.reverse
  | c :: l =>
    if wsChar c then specRewriteToken acc.reverse ++ c :: specHashRewrite [] l
    else specHashRewrite (c :: acc) l

/-- A partial token that no continuation can turn into a rewritable
`#name` token (its rewrite is always the identity). -/
def DeadTok (acc : Str) : Prop :=
  ∀ m : Str, specRewriteToken (acc.reverse ++ m) = acc.reverse ++ m

/-- The text a scanner state still owes to the output if the input ends
with no further match. -/
def pendText : TagScanState → Str
  | .run acc => acc.reverse
  | _ => []

/-! ## The note store

The note store is the set of markdown files under the notes root: exactly
what `glob.glob(os.path.join(self.dir, "**/*" + MARKDOWN_EXT),
recursive=True)` enumerates, in enumeration order (`glob` does not
descend into the hidden `.flatnotes` index directory, so index data never
appears here).  Distinct files have distinct `(dirs, base)` pairs on a
real filesystem; definitions that read a file through a resolved path use
the resolved `NFile` directly, which is the same thing because full paths
are unique. -/
/-- One markdown file of the note store: subdirectory components relative
to the notes root, basename (including the `.md` extension), content, and
modification time (`os.path.getmtime`, compared only for equality by the
source, hence a `Nat`). -/
structure NFile where
  dirs : List Str
  base : Str
  content : Str
  mtime : Nat

deriving DecidableEq, Repr

/-- `os.path.join`-style path assembly: the components, `/`-separated,
in front of the basename. -/
def joinPath (comps : List Str) (base : Str) : Str :=
  comps.foldr (fun d acc => d ++ '/' :: acc) base

/-- The full path of a note file: the notes root followed by the
subdirectory components and the basename. -/
def fullpath (root : Str) (f : NFile) : Str :=
  joinPath (root :: f.dirs) f.base

/-- Python's substring test `needle in hay`. -/
def isSubstring (needle : Str) : Str → Bool
  | [] => needle.isEmpty
  | c :: t => needle.isPrefixOf (c :: t) || isSubstring needle t

/-- `Note.filepath` (src lines 60-69): start from `os.path.join("")`
(the empty string), scan every markdown file under the whole note root
in listing order, and keep the full path of each file whose path contains
the note's filename as a substring (Python's `in`); the last match wins. -/
def note_filepath (files : List NFile) (root : Str) (filename : Str) : Str :=
  files.foldl
    (fun acc f =>
      if isSubstring filename (fullpath root f) then fullpath root f else acc)
    []

/-! ## The Index Store's entries, search ordering and hit scores -/
/-- One entry of the Index Store, per `IndexSchema` (src lines 28-35):
unique stored `filename` key, stored sortable `last_modified`, sortable
analyzed `title`, analyzed tag-stripped `content`, and the keyword set
`tags` (the source joins the lowercased tag set into a space-separated
keyword string whose word order Python's set iteration leaves
unspecified; the entry carries the set itself). -/
structure Entry where
  filename : Str
  last_modified : Nat
  title : Str
  content : Str
  tags : Finset Str

deriving DecidableEq

/-- The `sort` argument of `Flatnotes.search`
(`Literal["score", "title", "last_modified"]`, src line 311). -/
inductive SortOpt where
  | score : SortOpt
  | title : SortOpt
  | last_modified : SortOpt

deriving DecidableEq, Repr

/-- The `order` argument of `Flatnotes.search` (`Literal["asc", "desc"]`,
src line 312). -/
inductive OrderOpt where
  | asc : OrderOpt
  | desc : OrderOpt

deriving DecidableEq, Repr

/-- A sortable stored field, as passed to whoosh's `sortedby`. -/
inductive SortField where
  | title : SortField
  | last_modified : SortField

deriving DecidableEq, Repr

/-- A raw whoosh hit: the stored entry plus the engine's intrinsic
relevance score for the query (whoosh's float score; only its ordering
and identity matter here, hence a `Nat`). -/
structure RawHit where
  entry : Entry
  rawScore : Nat

deriving DecidableEq

/-- Lexicographic order on strings: the natural ordering of an indexed
text field's terms. -/
def strLe : Str → Str → Bool
  | [], _ => true
  | _ :: _, [] => false
  | a :: as, b :: bs => if a = b then strLe as bs else decide (a < b)

def hitTitleLe (a b : RawHit) : Prop :=
  strLe a.entry.title b.entry.title = true

def hitMtimeLe (a b : RawHit) : Prop :=
  a.entry.last_modified ≤ b.entry.last_modified

/-- "`a` scores at least as high as `b`": the best-first order of a
relevance-ranked result list. -/
def hitScoreGe (a b : RawHit) : Prop :=
  b.rawScore ≤ a.rawScore

instance : DecidableRel hitTitleLe :=
  fun _ _ => inferInstanceAs (Decidable (_ = true))

instance : DecidableRel hitMtimeLe :=
  fun _ _ => Nat.decLe _ _

instance : DecidableRel hitScoreGe :=
  fun _ _ => Nat.decLe _ _

instance : IsTotal RawHit hitScoreGe :=
  ⟨fun a b => Nat.le_total b.rawScore a.rawScore⟩

instance : IsTrans RawHit hitScoreGe :=
  ⟨fun _ _ _ h1 h2 => le_trans h2 h1⟩

/-- Modelled from the spec (§4.3) and the source's own comments: whoosh's
`searcher.search(query, sortedby=sort, reverse=reverse, ...)` ordering.
With `sortedby` a stored field, hits are sorted by that field's natural
ordering and `reverse=True` exactly reverses that ordering; with
`sortedby=None` the hits come back ranked by intrinsic relevance score,
best first, and `reverse=True` reverses that too (the src comment at
lines 335-337: "when sorting by 'score', reverse = True means asc"). -/
def whooshOrder (hits : List RawHit) (sortedby : Option SortField)
    (reverse : Bool) : List RawHit :=
  match sortedby with
  | some .title =>
    let s := hits.insertionSort hitTitleLe
    if reverse then s.reverse else s
  | some .last_modified =>
    let s := hits.insertionSort hitMtimeLe
    if reverse then s.reverse else s
  | none =>
    let s := hits.insertionSort hitScoreGe
    if reverse then s.reverse else s

/-- The sort arguments `Flatnotes.search` hands to whoosh
(src lines 329-341): `sort` is kept only when it is `title` or
`last_modified` (`"score"` becomes `None`); `reverse` is `order ==
"desc"`, then explicitly flipped in a separate branch when `sort` is
`None`, because for score sorts `reverse=True` means ascending. -/
def computeSortArgs (sort : SortOpt) (order : OrderOpt) :
    Option SortField × Bool :=
  let s : Option SortField :=
    match sort with
    | .title => some .title
    | .last_modified => some .last_modified
    | .score => none
  let r : Bool := decide (order = .desc)
  let r := if s = none then !r else r
  (s, r)

/-- The ordering of the hits `Flatnotes.search` obtains from whoosh for a
given `sort`/`order` choice, over an arbitrary matched result set. -/
def searchOrdered (hits : List RawHit) (sort : SortOpt) (order : OrderOpt) :
    List RawHit :=
  whooshOrder hits (computeSortArgs sort order).1 (computeSortArgs sort order).2

/-- The Python value found in `hit.score`: a `float` relevance score, or
the sort field's stored value (text or datetime) when the search was
ordered by a field. -/
inductive HitScoreVal where
  | num (s : Nat) : HitScoreVal
  | text (v : Str) : HitScoreVal
  | dt (v : Nat) : HitScoreVal

deriving DecidableEq

/-- Modelled from the source's comment (src lines 127-129: "If the search
was ordered using a text field then hit.score is the value of that
field") and whoosh's documented behaviour: with `sortedby` a stored
field, `hit.score` holds that field's value; with `sortedby=None` it is
the engine's float relevance score. -/
def whooshHitScore (sortedby : Option SortField) (h : RawHit) : HitScoreVal :=
  match sortedby with
  | none => .num h.rawScore
  | some .title => .text h.entry.title
  | some .last_modified => .dt h.entry.last_modified

/-- `SearchResult.__init__` (src line 130): `self._score = hit.score if
type(hit.score) is float else None`; `SearchResult.score` (src lines
154-156) returns it unchanged. -/
def searchResult_score (v : HitScoreVal) : Option Nat :=
  match v with
  | .num s => some s
  | .text _ => none
  | .dt _ => none

/-! ## Notes, titles, the index writer and synchronization -/
/-- The Python exceptions the modelled code can raise. -/
inductive PyErr where
  | invalidTitle : PyErr      -- `InvalidTitleError` (src line 38)
  | fileNotFound : PyErr      -- `FileNotFoundError` (opening a missing path)
  | attributeError : PyErr    -- `AttributeError` (missing attribute lookup)

deriving DecidableEq, Repr

deriving instance DecidableEq for Except

/-- `MARKDOWN_EXT = ".md"` (src line 22). -/
def MARKDOWN_EXT : Str := ".md".toList

/-- Modelled from the spec: `strip_ext` from the repository's `helpers`
module (imported at src line 19, file missing from src/).  The spec's
NoteRecord key is "filename-derived" (§3) and `Note.filename`
(src lines 75-77) restores the filename by appending `.md` to the title,
so `strip_ext` removes the final filename extension: everything from the
last `.` on (a name with no `.` is unchanged). -/
def strip_ext (s : Str) : Str :=
  if '.' ∈ s then ((s.reverse.dropWhile (fun c => !(c = '.'))).drop 1).reverse
  else s

/-- `Note._is_valid_title` (src lines 115-119): no character of
`<>:"/\|?*` occurs in the title. -/
def is_valid_title (title : Str) : Bool :=
  !("<>:\"/\\|?*".toList.any (fun c => title.contains c))

/-- `Note.__init__` with `new=False` (src lines 44-55), as used during
synchronization: strip the title and validate it, raising
`InvalidTitleError` otherwise; the note's state is its title. -/
def mkNoteTitle (title : Str) : Except PyErr Str :=
  let t := pyStrip title
  if is_valid_title t then .ok t else .error .invalidTitle

/-- `Note.filename` (src lines 75-77): the title plus `.md`. -/
def note_filename (title : Str) : Str := title ++ MARKDOWN_EXT

/-- The note file `Note.filepath`'s directory scan resolves to
(src lines 64-69): the **last** markdown file whose full path contains
the filename as a substring, `none` when no path does (then `filepath`
is `""` and opening it raises `FileNotFoundError`).  Full paths are
unique on a filesystem, so reading the file at the resolved path reads
exactly this `NFile`. -/
def resolveNote (files : List NFile) (root : Str) (filename : Str) :
    Option NFile :=
  files.foldl
    (fun acc f => if isSubstring filename (fullpath root f) then some f else acc)
    none

/-- A whoosh writer operation buffered during `update_index`'s single
writer session, modelled from whoosh's documented behaviour as cited by
the source's docstrings: `writer.delete_by_term("filename", k)` marks
every **committed** document whose unique `filename` equals `k` deleted;
`writer.update_document(...)` (used by `_add_note_to_index`, docstring:
"If the filename already exists in the index an update will be performed
instead") is such a delete followed by buffering the new document.
Deletions never affect documents buffered in the same session — per
whoosh's `update_document` documentation, two `update_document` calls
with the same unique key in one session add two documents. -/
inductive WOp where
  | del (filename : Str) : WOp
  | upd (e : Entry) : WOp

deriving DecidableEq

/-- The unique-key term a writer operation deletes from the committed
segments. -/
def wopKey : WOp → Str
  | .del k => k
  | .upd e => e.filename

/-- The document a writer operation buffers for addition, if any. -/
def wopAdd : WOp → Option Entry
  | .del _ => none
  | .upd e => some e

/-- `writer.commit()` (src line 289), with `writer.mergetype =
writing.CLEAR` when `clean` (src line 262): atomically, the committed
entries whose key some session operation deleted disappear (all previous
entries, under `CLEAR`), and the session's buffered documents are
appended. -/
def commitOps (idx : List Entry) (ops : List WOp) (clean : Bool) :
    List Entry :=
  (if clean then []
   else idx.filter (fun e => !(decide (e.filename ∈ ops.map wopKey))))
    ++ ops.filterMap wopAdd

/-- `Flatnotes._add_note_to_index` (src lines 227-241) on a constructed
`Note` with the given title: read the note's content through the
`Note.filepath` scan (`FileNotFoundError` when nothing resolves),
extract its tags, and buffer `writer.update_document` carrying the
note's filename, the resolved file's modification time
(`Note.last_modified`, src lines 79-81), the title, the tag-stripped
content and the lowercased tag set. -/
def add_note_to_index (files : List NFile) (root : Str) (title : Str) :
    Except PyErr WOp :=
  match resolveNote files root (note_filename title) with
  | none => .error .fileNotFound
  | some f =>
    let (content_ex_tags, tag_set) := extract_tags f.content
    .ok (.upd { filename := note_filename title,
                last_modified := f.mtime,
                title := title,
                content := content_ex_tags,
                tags := tag_set })

/-- `os.path.join(self.dir, idx_filename)` existence/mtime lookup
(src lines 266-273): joining the notes root directly with the entry's
filename addresses only a **top-level** file; an entry whose note lives
in a subdirectory is not found by this lookup. -/
def findTopLevel (files : List NFile) (filename : Str) : Option NFile :=
  files.find? (fun f => f.dirs.isEmpty && f.base = filename)

/-- One iteration of `update_index`'s loop over the committed entries
(src lines 264-283): delete the entry when no file exists at
`<root>/<filename>`; when that file's modification time differs from the
stored `last_modified`, re-index `Note(self, strip_ext(idx_filename))`
and mark the key seen; otherwise just mark the key seen.  Returns the
buffered operation (if any) and the seen key (if any). -/
def syncEntry (files : List NFile) (root : Str) (e : Entry) :
    Except PyErr (Option WOp × Option Str) :=
  match findTopLevel files e.filename with
  | none => .ok (some (.del e.filename), none)
  | some f =>
    if f.mtime ≠ e.last_modified then
      match mkNoteTitle (strip_ext e.filename) with
      | .error err => .error err
      | .ok title =>
        match add_note_to_index files root title with
        | .error err => .error err
        | .ok op => .ok (some op, some e.filename)
    else .ok (none, some e.filename)

/-- `update_index`'s loop over `searcher.all_stored_fields()` — the
committed entries in index order — collecting the buffered operations
and the `indexed` key set (src lines 259-283). -/
def syncEntries (files : List NFile) (root : Str) :
    List Entry → Except PyErr (List WOp × List Str)
  | [] => .ok ([], [])
  | e :: rest =>
    match syncEntry files root e with
    | .error err => .error err
    | .ok (op?, seen?) =>
      match syncEntries files root rest with
      | .error err => .error err
      | .ok (ops, seen) => .ok (op?.toList ++ ops, seen?.toList ++ seen)

/-- `Flatnotes._get_notes` (src lines 243-254): a `Note` for every
markdown file under the notes root, built from the basename stripped of
its extension (`Note.__init__` strips whitespace and validates).  The
`set_subdirs` value recorded on each note never influences
`Note.filepath` (which always re-scans), so a note's state is its
title. -/
def get_notes : List NFile → Except PyErr (List Str)
  | [] => .ok []
  | f :: rest =>
    match mkNoteTitle (strip_ext f.base) with
    | .error err => .error err
    | .ok t =>
      match get_notes rest with
      | .error err => .error err
      | .ok ts => .ok (t :: ts)

/-- The "Add new" loop of `update_index` (src lines 284-288): buffer an
upsert for every note whose filename is not in `indexed`.  The `indexed`
set is **not** extended here, so several files sharing a basename each
buffer an upsert in the same session. -/
def addNewNotes (files : List NFile) (root : Str) (seen : List Str) :
    List Str → Except PyErr (List WOp)
  | [] => .ok []
  | t :: ts =>
    if note_filename t ∈ seen then addNewNotes files root seen ts
    else
      match add_note_to_index files root t with
      | .error err => .error err
      | .ok op =>
        match addNewNotes files root seen ts with
        | .error err => .error err
        | .ok ops => .ok (op :: ops)

/-- `Flatnotes.update_index` (src lines 256-289), one writer session:
scan the committed entries against the note store, enumerate the notes,
buffer an upsert for every note not marked seen, and commit atomically
(`clean=True` sets `writing.CLEAR`). -/
def update_index (files : List NFile) (root : Str) (idx : List Entry)
    (clean : Bool) : Except PyErr (List Entry) :=
  match syncEntries files root idx with
  | .error err => .error err
  | .ok (ops1, seen) =>
    match get_notes files with
    | .error err => .error err
    | .ok titles =>
      match addNewNotes files root seen titles with
      | .error err => .error err
      | .ok ops2 => .ok (commitOps idx (ops1 ++ ops2) clean)

/-- The attribute names resolvable on a `Flatnotes` object: the class's
methods, properties and class attributes (src lines 177-350) and the
instance attributes assigned in `__init__` (src lines 184-186). -/
def flatnotesAttrs : List String :=
  ["TAGS_RE", "TAGS_WITH_HASH_RE", "__init__", "index_dir", "_load_index",
   "extract_tags", "_add_note_to_index", "_get_notes", "update_index",
   "get_tags", "pre_process_search_term", "search", "dir", "index"]

/-- `Flatnotes.get_tags` (src lines 291-296): the body first evaluates
`self.update_index_debounced()`; Python resolves the attribute name
dynamically and raises `AttributeError` when it is defined nowhere on
the object.  Were the attribute present (as the docstring "Return a list
of all indexed tags" intends), the call would synchronize and then
return every term of the index's `tags` field. -/
def get_tags (files : List NFile) (root : Str) (idx : List Entry) :
    Except PyErr (Finset Str) :=
  if "update_index_debounced" ∈ flatnotesAttrs then do
    let idx' ← update_index files root idx false
    .ok (idx'.foldr (fun e s => e.tags ∪ s) ∅)
  else .error .attributeError

/-- A filename that round-trips through the title machinery unchanged:
stripping the extension and re-appending `.md` restores it, and the
stripped stem survives `Note.__init__` (whitespace-strip plus validity)
as itself.  Every filename actually produced by saving a note satisfies
this; it rules out names with invalid characters, surrounding
whitespace, or without the `.md` extension. -/
def CleanName (b : Str) : Prop :=
  note_filename (strip_ext b) = b ∧ mkNoteTitle (strip_ext b) = .ok (strip_ext b)

instance (b : Str) : Decidable (CleanName b) :=
  inferInstanceAs (Decidable (_ ∧ _))

/-- How `update_index`'s entry loop classifies a committed entry:
`none` — no file at `<root>/<filename>` (the entry is deleted);
`some true` — the top-level file's mtime equals the stored one (entry
kept untouched); `some false` — the mtime differs (entry re-indexed). -/
def entryClass (files : List NFile) (e : Entry) : Option Bool :=
  match findTopLevel files e.filename with
  | none => none
  | some f => some (decide (f.mtime = e.last_modified))

/-- Whether the entry loop marks this entry's key seen (its top-level
file exists). -/
def entrySeenB (files : List NFile) (e : Entry) : Bool :=
  (entryClass files e).isSome

/-- Whether the entry loop buffers an operation (delete or upsert) whose
key is this entry's filename. -/
def entryOpB (files : List NFile) (e : Entry) : Bool :=
  match entryClass files e with
  | some true => false
  | _ => true

/-- Whether the entry loop buffers an upsert for this entry. -/
def entryUpdB (files : List NFile) (e : Entry) : Bool :=
  match entryClass files e with
  | some false => true
  | _ => false

/-! ## Properties -/

theorem ws_not_word {c : Char} (h : wsChar c = true) : wordChar c = false := by
  simp only [wsChar, Bool.or_eq_true, decide_eq_true_eq] at h
  rcases h with ((((rfl | rfl) | rfl) | rfl) | rfl) | rfl <;> decide

theorem word_not_ws {c : Char} (h : wordChar c = true) : wsChar c = false := by
  cases hws : wsChar c
  · rfl
  · rw [ws_not_word hws] at h; cases h

theorem specRewriteToken_nil : specRewriteToken [] = [] := rfl

theorem specRewriteToken_not_hash {c : Char} (h : c ≠ '#') (m : Str) :
    specRewriteToken (c :: m) = c :: m := by
  unfold specRewriteToken
  split
  · next w heq =>
    injection heq with h1 _
    exact absurd h1 h
  · rfl

theorem specRewriteToken_hash_bad {w : Str} (h : w.all wordChar = false) :
    specRewriteToken ('#' :: w) = '#' :: w := by
  simp [specRewriteToken, h]

theorem deadTok_cons {acc : Str} (c : Char) (h : DeadTok acc) :
    DeadTok (c :: acc) := by
  intro m
  simpa [List.append_assoc] using h (c :: m)

theorem deadTok_single {c : Char} (h : c ≠ '#') : DeadTok [c] := by
  intro m
  simpa using specRewriteToken_not_hash h m

theorem deadTok_hash_nonword {acc : Str} {c : Char}
    (_hacc : acc.all wordChar = true) (hc : wordChar c = false) :
    DeadTok (c :: (acc ++ ['#'])) := by
  intro m
  have hrw : ((c :: (acc ++ ['#'])).reverse ++ m) = '#' :: (acc.reverse ++ c :: m) := by
    simp
  rw [hrw]
  have hbad : (acc.reverse ++ c :: m).all wordChar = false := by
    simp [List.all_append, hc]
  rw [specRewriteToken_hash_bad hbad]

theorem specRewriteToken_hash (w : Str) :
    specRewriteToken ('#' :: w) =
      if (!w.isEmpty && w.all wordChar) = true then "tags:".toList ++ w
      else '#' :: w := rfl

theorem hashRunOut_eq_spec {acc : Str} (h : acc.all wordChar = true) :
    hashRunOut acc = specRewriteToken ('#' :: acc.reverse) := by
  cases acc with
  | nil => rfl
  | cons a acc =>
    have hne : ((a :: acc).reverse).isEmpty = false := by
      simp
    have hall : ((a :: acc).reverse).all wordChar = true := by
      rw [List.all_reverse]; exact h
    rw [specRewriteToken_hash, hne, hall]
    rfl

theorem hashSub_norm_cons (b : Bool) (c : Char) (l : Str) :
    hashSub (.norm b) (c :: l) =
      if (c = '#' && b) = true then hashSub (.hash []) l
      else c :: hashSub (.norm (wsChar c)) l := rfl

theorem hashSub_hash_cons (acc : Str) (c : Char) (l : Str) :
    hashSub (.hash acc) (c :: l) =
      if wordChar c = true then hashSub (.hash (c :: acc)) l
      else if wsChar c = true then hashRunOut acc ++ c :: hashSub (.norm true) l
      else '#' :: acc.reverse ++ c :: hashSub (.norm false) l := rfl

theorem specHashRewrite_cons (acc : Str) (c : Char) (l : Str) :
    specHashRewrite acc (c :: l) =
      if wsChar c = true then
        specRewriteToken acc.reverse ++ c :: specHashRewrite [] l
      else specHashRewrite (c :: acc) l := rfl

/-- The `re.sub` scan for `TAGS_WITH_HASH_RE` computes exactly the
spec-side whitespace-token rewrite: every whitespace-delimited token of
the form `#` + word characters becomes `tags:<name>`, all other text is
untouched.  The three conjuncts cover the scanner's three reachable
configurations (token boundary, inside a candidate `#`-run, inside a dead
token). -/
theorem hashSub_eq_spec (l : Str) :
    (hashSub (.norm true) l = specHashRewrite [] l)
    ∧ (∀ acc, acc.all wordChar = true →
        hashSub (.hash acc) l = specHashRewrite (acc ++ ['#']) l)
    ∧ (∀ acc, acc ≠ [] → DeadTok acc →
        acc.reverse ++ hashSub (.norm false) l = specHashRewrite acc l) := by
  induction l with
  | nil =>
    refine ⟨rfl, ?_, ?_⟩
    · intro acc hacc
      show hashRunOut acc = specRewriteToken (acc ++ ['#']).reverse
      rw [hashRunOut_eq_spec hacc]
      simp
    · intro acc _ hdead
      show acc.reverse ++ [] = specRewriteToken acc.reverse
      simpa using (hdead []).symm
  | cons c l ih =>
    obtain ⟨ihR, ihP, ihQ⟩ := ih
    by_cases hws : wsChar c = true
    · -- `c` is whitespace: every configuration closes its token and
      -- returns to the boundary state.
      have hchash : c ≠ '#' := by
        intro h; subst h; cases hws
      refine ⟨?_, ?_, ?_⟩
      · rw [hashSub_norm_cons, specHashRewrite_cons,
          if_neg (by simp [hchash]), if_pos hws, hws, ihR]
        simp [specRewriteToken_nil]
      · intro acc hacc
        rw [hashSub_hash_cons, if_neg (by simp [ws_not_word hws]),
          if_pos hws, specHashRewrite_cons, if_pos hws,
          hashRunOut_eq_spec hacc, ihR]
        simp
      · intro acc hne hdead
        rw [hashSub_norm_cons, if_neg (by simp), hws,
          specHashRewrite_cons, if_pos hws, ihR]
        have hid : specRewriteToken acc.reverse = acc.reverse := by
          simpa using hdead []
        rw [hid]
    · -- `c` is not whitespace.
      have hwsf : wsChar c = false := by
        cases h : wsChar c
        · rfl
        · exact absurd h hws
      refine ⟨?_, ?_, ?_⟩
      · by_cases hc : c = '#'
        · subst hc
          rw [hashSub_norm_cons, if_pos (by simp), specHashRewrite_cons,
            if_neg hws]
          simpa using ihP [] rfl
        · rw [hashSub_norm_cons, if_neg (by simp [hc]),
            specHashRewrite_cons, if_neg hws, hwsf]
          simpa using ihQ [c] (by simp) (deadTok_single hc)
      · intro acc hacc
        by_cases hword : wordChar c = true
        · rw [hashSub_hash_cons, if_pos hword, specHashRewrite_cons,
            if_neg hws]
          have hstep := ihP (c :: acc) (by simp [List.all_cons, hword, hacc])
          simpa using hstep
        · have hwordf : wordChar c = false := by
            cases h : wordChar c
            · rfl
            · exact absurd h hword
          rw [hashSub_hash_cons, if_neg (by simp [hwordf]), if_neg hws,
            specHashRewrite_cons, if_neg hws]
          have hq := ihQ (c :: (acc ++ ['#'])) (by simp)
            (deadTok_hash_nonword hacc hwordf)
          rw [← hq]
          simp
      · intro acc hne hdead
        rw [hashSub_norm_cons, if_neg (by simp), hwsf,
          specHashRewrite_cons, if_neg hws]
        have hq := ihQ (c :: acc) (by simp) (deadTok_cons c hdead)
        rw [← hq]
        simp

theorem tagScan_boundary_cons (c : Char) (l : Str) :
    tagScan .boundary (c :: l) =
      (c :: (tagScan (tagNextState .boundary c) l).1,
        (tagScan (tagNextState .boundary c) l).2) := rfl

theorem tagScan_plain_cons (c : Char) (l : Str) :
    tagScan .plain (c :: l) =
      (c :: (tagScan (tagNextState .plain c) l).1,
        (tagScan (tagNextState .plain c) l).2) := rfl

theorem tagScan_afterHash_cons (c : Char) (l : Str) :
    tagScan .afterHash (c :: l) =
      if wordChar c = true then tagScan (.run [c]) l
      else (c :: (tagScan (tagNextState .afterHash c) l).1,
        (tagScan (tagNextState .afterHash c) l).2) := rfl

theorem tagScan_run_cons (acc : Str) (c : Char) (l : Str) :
    tagScan (.run acc) (c :: l) =
      if wordChar c = true then tagScan (.run (c :: acc)) l
      else if wsChar c = true then
        (c :: (tagScan .boundary l).1, acc.reverse :: (tagScan .boundary l).2)
      else (acc.reverse ++ c :: (tagScan .plain l).1, (tagScan .plain l).2) := rfl

theorem pendText_tagNextState (st : TagScanState) (c : Char) :
    pendText (tagNextState st c) = [] := by
  unfold tagNextState
  split
  · rfl
  · split <;> rfl

/-- If the `TAGS_RE` scan produced no match, it copied its input
verbatim. -/
theorem tagScan_no_match (l : Str) :
    ∀ st : TagScanState, (tagScan st l).2 = [] →
      (tagScan st l).1 = pendText st ++ l := by
  induction l with
  | nil =>
    intro st h
    cases st with
    | run acc => exact absurd h (by simp [tagScan])
    | boundary => simp [tagScan, pendText]
    | afterHash => simp [tagScan, pendText]
    | plain => simp [tagScan, pendText]
  | cons c l ih =>
    intro st h
    cases st with
    | boundary =>
      rw [tagScan_boundary_cons] at h ⊢
      simp only [pendText, List.nil_append]
      rw [ih _ h, pendText_tagNextState, List.nil_append]
    | plain =>
      rw [tagScan_plain_cons] at h ⊢
      simp only [pendText, List.nil_append]
      rw [ih _ h, pendText_tagNextState, List.nil_append]
    | afterHash =>
      rw [tagScan_afterHash_cons] at h ⊢
      by_cases hword : wordChar c = true
      · rw [if_pos hword] at h ⊢
        simp only [pendText, List.nil_append]
        simpa [pendText] using ih _ h
      · rw [if_neg hword] at h ⊢
        simp only [pendText, List.nil_append]
        rw [ih _ h, pendText_tagNextState, List.nil_append]
    | run acc =>
      rw [tagScan_run_cons] at h ⊢
      by_cases hword : wordChar c = true
      · rw [if_pos hword] at h ⊢
        simpa [pendText] using ih _ h
      · rw [if_neg hword] at h ⊢
        by_cases hws : wsChar c = true
        · rw [if_pos hws] at h
          cases h
        · rw [if_neg hws] at h ⊢
          simp only [pendText]
          rw [ih _ h]
          simp [pendText]

/-- C8: on content in which the `TAGS_RE` scan matches no token, the
source's `extract_tags` returns the original content unchanged together
with the empty tag set.  (`extract_tags` is a total function of the
content — the model has no failure case, and the source's only `except`
clause guards dead code — so no error is possible.) -/
theorem extract_tags_no_match (content : Str)
    (h : (reExtractTags content).2 = []) :
    extract_tags content = (content, ∅) := by
  have h1 : (reExtractTags content).1 = content := by
    simpa [pendText] using tagScan_no_match content .boundary h
  show ((reExtractTags content).1,
    ((reExtractTags content).2.map pyLower).toFinset) = (content, ∅)
  rw [h, h1]
  rfl

/-- Witness for C8 at concrete content with a raw `#` outside the
boundary rule (a URL anchor) and no matching token. -/
theorem extract_tags_no_match_witness :
    (reExtractTags "see http://ex.com/a#b now".toList).2 = [] ∧
      extract_tags "see http://ex.com/a#b now".toList =
        ("see http://ex.com/a#b now".toList, ∅) :=
  ⟨by decide, extract_tags_no_match _ (by decide)⟩

/-- C2 counterexample: on `"Shopping #groceries list"` the source does
not return the pair claimed by the spec.  `TAGS_RE` matches only the word
characters after the `#` (the `#` sits in a lookbehind), so `re.sub`
removes `groceries` but keeps the `#`: the stripped content is
`"Shopping # list"`, not `"Shopping list"`. -/
theorem extract_tags_shopping_claim_false :
    extract_tags "Shopping #groceries list".toList ≠
      ("Shopping list".toList, {"groceries".toList}) := by
  decide

/-- C2 amended: extracting tags from `"Shopping #groceries list"` yields
the tag set `{"groceries"}` and the stripped content
`"Shopping # list"` (the `#` of a matched tag is not part of the matched
token and remains in the content). -/
theorem extract_tags_shopping :
    extract_tags "Shopping #groceries list".toList =
      ("Shopping # list".toList, {"groceries".toList}) := by
  decide

/-- C4: query preprocessing trims surrounding whitespace and then
rewrites exactly the whitespace-delimited tokens of the form
`#` + word-characters (the query boundary rule: `#` at start or after
whitespace, word characters, then whitespace or end) into
`tags:<name>`, leaving all other text — including `#` tokens outside
those boundaries — untouched; in particular `"#groceries"` becomes
`"tags:groceries"` while `"x#y #a-b"` is left as free text. -/
theorem pre_process_search_term_spec :
    (∀ term : Str,
      pre_process_search_term term = specHashRewrite [] (pyStrip term))
    ∧ pre_process_search_term "#groceries".toList = "tags:groceries".toList
    ∧ pre_process_search_term "x#y #a-b".toList = "x#y #a-b".toList := by
  refine ⟨fun term => (hashSub_eq_spec (pyStrip term)).1, by decide, by decide⟩

theorem suffix_joinPath (comps : List Str) (base : Str) :
    base <:+ joinPath comps base := by
  induction comps with
  | nil => exact List.suffix_rfl
  | cons d cs ih =>
    show base <:+ d ++ '/' :: joinPath cs base
    exact ih.trans ((List.suffix_cons '/' _).trans (List.suffix_append d _))

theorem base_suffix_fullpath (root : Str) (f : NFile) :
    f.base <:+ fullpath root f :=
  suffix_joinPath _ _

theorem isSubstring_eq_true_iff (needle hay : Str) :
    isSubstring needle hay = true ↔ needle <:+: hay := by
  induction hay with
  | nil =>
    simp [isSubstring, List.isEmpty_iff]
  | cons c t ih =>
    simp only [isSubstring, Bool.or_eq_true, List.isPrefixOf_iff_prefix, ih,
      List.infix_cons_iff]

theorem foldl_lastMatch (root filename : Str) (files : List NFile) :
    ∀ acc : Str,
      files.foldl
        (fun a f =>
          if isSubstring filename (fullpath root f) then fullpath root f else a)
        acc =
      match (files.filter
          fun f => isSubstring filename (fullpath root f)).getLast? with
      | some f => fullpath root f
      | none => acc := by
  induction files with
  | nil => intro acc; rfl
  | cons f fs ih =>
    intro acc
    rw [List.foldl_cons]
    by_cases hc : isSubstring filename (fullpath root f) = true
    · rw [if_pos hc, ih (fullpath root f), List.filter_cons_of_pos (p := fun g => isSubstring filename (fullpath root g)) hc]
      cases hfl : fs.filter (fun g => isSubstring filename (fullpath root g)) with
      | nil => rfl
      | cons g gs =>
        obtain ⟨x, hx⟩ := Option.isSome_iff_exists.mp
          (List.getLast?_isSome.mpr (List.cons_ne_nil g gs))
        rw [List.getLast?_cons_cons, hx]
    · rw [if_neg hc, List.filter_cons_of_neg (p := fun g => isSubstring filename (fullpath root g)) hc, ih acc]

/-- C10: `Note.filepath` returns the full path of the **last** markdown
file under the note root whose path contains the note's filename as a
substring, and the empty string when no path contains it (no error is
raised).  In particular the two distinct keys `a.md` and `data.md` both
resolve to the same file `notes/data.md`, and a missing note resolves to
`""`. -/
theorem note_filepath_spec :
    (∀ (files : List NFile) (root filename : Str),
      note_filepath files root filename =
        match (files.filter
            fun f => isSubstring filename (fullpath root f)).getLast? with
        | some f => fullpath root f
        | none => [])
    ∧ note_filepath [⟨[], "data.md".toList, [], 0⟩] "notes".toList
        "a.md".toList = "notes/data.md".toList
    ∧ note_filepath [⟨[], "data.md".toList, [], 0⟩] "notes".toList
        "data.md".toList = "notes/data.md".toList
    ∧ note_filepath [⟨[], "data.md".toList, [], 0⟩] "notes".toList
        "z.md".toList = [] := by
  refine ⟨fun files root filename => foldl_lastMatch root filename files [],
    by decide, by decide, by decide⟩

/-- C5: over every matched result set, sorting by `title` ascending
yields exactly the reverse of sorting by `title` descending; sorting by
relevance descending yields the hits in best-score-first order; and the
reverse flag the code passes for the relevance sort is explicitly the
negation of the one passed for a field sort of the same requested
order. -/
theorem search_sort_spec :
    (∀ hits : List RawHit,
      searchOrdered hits .title .asc = (searchOrdered hits .title .desc).reverse)
    ∧ (∀ hits : List RawHit,
      List.Sorted hitScoreGe (searchOrdered hits .score .desc))
    ∧ (∀ o : OrderOpt,
      (computeSortArgs .score o).2 = !(computeSortArgs .title o).2) := by
  refine ⟨?_, ?_, ?_⟩
  · intro hits
    show hits.insertionSort hitTitleLe =
      ((hits.insertionSort hitTitleLe).reverse).reverse
    exact (List.reverse_reverse _).symm
  · intro hits
    show List.Sorted hitScoreGe (hits.insertionSort hitScoreGe)
    exact List.sorted_insertionSort hitScoreGe hits
  · intro o
    cases o <;> rfl

/-- C7: the assembled result's score field carries the raw numeric
relevance score exactly when the search was sorted by relevance; under a
`title` or `last_modified` sort `hit.score` is the field value, which is
not a float, so the score field is `None` — never a stale numeric
value. -/
theorem searchResult_score_spec (sort : SortOpt) (order : OrderOpt)
    (h : RawHit) :
    searchResult_score (whooshHitScore (computeSortArgs sort order).1 h) =
      if sort = .score then some h.rawScore else none := by
  cases sort <;> cases order <;> rfl

theorem resolveNote_aux_eq_none (root fn : Str) (files : List NFile) :
    ∀ acc : Option NFile,
      files.foldl
        (fun a f => if isSubstring fn (fullpath root f) then some f else a)
        acc = none
      ↔ acc = none ∧ ∀ f ∈ files, isSubstring fn (fullpath root f) = false := by
  induction files with
  | nil => intro acc; simp
  | cons g gs ih =>
    intro acc
    rw [List.foldl_cons]
    by_cases hg : isSubstring fn (fullpath root g) = true
    · rw [if_pos hg, ih (some g)]
      simp [hg]
    · have hg' : isSubstring fn (fullpath root g) = false := by
        cases h : isSubstring fn (fullpath root g)
        · rfl
        · exact absurd h hg
      rw [if_neg hg, ih acc]
      simp only [List.mem_cons]
      constructor
      · rintro ⟨h1, h2⟩
        exact ⟨h1, fun f hf => hf.elim (fun hfe => hfe ▸ hg') (h2 f)⟩
      · rintro ⟨h1, h2⟩
        exact ⟨h1, fun f hf => h2 f (Or.inr hf)⟩

/-- When some note file carries exactly the looked-up basename, the
`Note.filepath` scan resolves (its path ends in the basename). -/
theorem resolveNote_isSome_of_base (files : List NFile) (root fn : Str)
    (f : NFile) (hf : f ∈ files) (hb : f.base = fn) :
    (resolveNote files root fn).isSome := by
  cases hr : resolveNote files root fn with
  | some g => rfl
  | none =>
    have := (resolveNote_aux_eq_none root fn files none).mp hr
    have hsub : isSubstring fn (fullpath root f) = true := by
      rw [isSubstring_eq_true_iff]
      exact hb ▸ (base_suffix_fullpath root f).isInfix
    rw [this.2 f hf] at hsub
    cases hsub

/-- Successful upsert construction: when the looked-up filename is clean
and some note file carries it as basename, `_add_note_to_index` on
`Note(self, strip_ext(filename))` succeeds and buffers an upsert whose
key is that filename. -/
theorem add_note_ok (files : List NFile) (root b : Str)
    (hclean : CleanName b) (f : NFile) (hf : f ∈ files) (hb : f.base = b) :
    ∃ e' : Entry, add_note_to_index files root (strip_ext b) = .ok (.upd e')
      ∧ e'.filename = b := by
  have hres : (resolveNote files root (note_filename (strip_ext b))).isSome := by
    rw [hclean.1]
    exact resolveNote_isSome_of_base files root b f hf hb
  obtain ⟨g, hg⟩ := Option.isSome_iff_exists.mp hres
  refine ⟨⟨note_filename (strip_ext b), g.mtime, strip_ext b,
    (extract_tags g.content).1, (extract_tags g.content).2⟩, ?_, hclean.1⟩
  unfold add_note_to_index
  rw [hg]

/-- Case analysis of one entry-loop iteration on a clean filename: it
always succeeds, and deletes / keeps / re-indexes the entry according to
its `entryClass`. -/
theorem syncEntry_cases (files : List NFile) (root : Str) (e : Entry)
    (hc : CleanName e.filename) :
    (entryClass files e = none
      ∧ syncEntry files root e = .ok (some (.del e.filename), none))
    ∨ (entryClass files e = some true
      ∧ syncEntry files root e = .ok (none, some e.filename))
    ∨ (∃ e', e'.filename = e.filename ∧ entryClass files e = some false
      ∧ syncEntry files root e = .ok (some (.upd e'), some e.filename)) := by
  unfold syncEntry entryClass
  cases hft : findTopLevel files e.filename with
  | none => exact Or.inl ⟨rfl, rfl⟩
  | some f =>
    by_cases hm : f.mtime = e.last_modified
    · refine Or.inr (Or.inl ⟨by simp [hm], ?_⟩)
      simp [hm]
    · have hmem : f ∈ files := List.mem_of_find?_eq_some hft
      have hbase : f.base = e.filename := by
        have hp := List.find?_some hft
        simp only [Bool.and_eq_true, decide_eq_true_eq] at hp
        exact hp.2
      obtain ⟨e', he', hkey⟩ := add_note_ok files root e.filename hc f hmem hbase
      refine Or.inr (Or.inr ⟨e', hkey, by simp [hm], ?_⟩)
      simp [hm, hc.2, he']

/-- The entry loop over clean filenames: it succeeds; the seen keys are
the keys of the entries whose top-level file exists; the buffered
operations' keys are the keys of the deleted or re-indexed entries; the
buffered documents' keys are the keys of the re-indexed entries. -/
theorem syncEntries_ok (files : List NFile) (root : Str) (idx : List Entry)
    (h : ∀ e ∈ idx, CleanName e.filename) :
    ∃ ops seen,
      syncEntries files root idx = .ok (ops, seen)
      ∧ seen = (idx.filter (entrySeenB files)).map Entry.filename
      ∧ ops.map wopKey = (idx.filter (entryOpB files)).map Entry.filename
      ∧ (ops.filterMap wopAdd).map Entry.filename =
          (idx.filter (entryUpdB files)).map Entry.filename := by
  induction idx with
  | nil => exact ⟨[], [], rfl, rfl, rfl, rfl⟩
  | cons e rest ih =>
    obtain ⟨ops, seen, hok, hseen, hkeys, hadds⟩ :=
      ih (fun x hx => h x (List.mem_cons_of_mem e hx))
    have hce := h e (List.mem_cons_self e rest)
    rcases syncEntry_cases files root e hce with
      ⟨hcl, hse⟩ | ⟨hcl, hse⟩ | ⟨e', hkey, hcl, hse⟩
    · refine ⟨.del e.filename :: ops, seen, ?_, ?_, ?_, ?_⟩
      · simp [syncEntries, hse, hok]
      · rw [hseen, List.filter_cons_of_neg (by simp [entrySeenB, hcl])]
      · rw [List.filter_cons_of_pos (by simp [entryOpB, hcl])]
        simp [wopKey, hkeys]
      · rw [List.filter_cons_of_neg (by simp [entryUpdB, hcl])]
        simpa [wopAdd] using hadds
    · refine ⟨ops, e.filename :: seen, ?_, ?_, ?_, ?_⟩
      · simp [syncEntries, hse, hok]
      · rw [List.filter_cons_of_pos (by simp [entrySeenB, hcl])]
        simp [hseen]
      · rw [hkeys, List.filter_cons_of_neg (by simp [entryOpB, hcl])]
      · rw [hadds, List.filter_cons_of_neg (by simp [entryUpdB, hcl])]
    · refine ⟨.upd e' :: ops, e.filename :: seen, ?_, ?_, ?_, ?_⟩
      · simp [syncEntries, hse, hok]
      · rw [List.filter_cons_of_pos (by simp [entrySeenB, hcl])]
        simp [hseen]
      · rw [List.filter_cons_of_pos (by simp [entryOpB, hcl])]
        simp [wopKey, hkeys, hkey]
      · rw [List.filter_cons_of_pos (by simp [entryUpdB, hcl])]
        simp [wopAdd, hadds, hkey]

/-- `_get_notes` on clean basenames: every `Note` constructs, with the
extension-stripped basename as title. -/
theorem get_notes_ok (files : List NFile)
    (h : ∀ f ∈ files, CleanName f.base) :
    get_notes files = .ok (files.map (fun f => strip_ext f.base)) := by
  induction files with
  | nil => rfl
  | cons f rest ih =>
    have hcf := h f (List.mem_cons_self f rest)
    simp [get_notes, hcf.2, ih (fun x hx => h x (List.mem_cons_of_mem f hx))]

/-- The "add new" loop over the titles of a run of note files (each a
member of the full listing, with clean basename): it succeeds, and both
the buffered operations' keys and the buffered documents' keys are
exactly the basenames not marked seen, in order. -/
theorem addNewNotes_ok (files : List NFile) (root : Str) (seen : List Str)
    (fs : List NFile) (hc : ∀ f ∈ fs, CleanName f.base)
    (hmem : ∀ f ∈ fs, f ∈ files) :
    ∃ ops,
      addNewNotes files root seen (fs.map (fun f => strip_ext f.base)) = .ok ops
      ∧ ops.map wopKey =
          (fs.map NFile.base).filter (fun b => !(decide (b ∈ seen)))
      ∧ (ops.filterMap wopAdd).map Entry.filename =
          (fs.map NFile.base).filter (fun b => !(decide (b ∈ seen))) := by
  induction fs with
  | nil => exact ⟨[], rfl, rfl, rfl⟩
  | cons f rest ih =>
    obtain ⟨ops, hok, hkeys, hadds⟩ :=
      ih (fun x hx => hc x (List.mem_cons_of_mem f hx))
        (fun x hx => hmem x (List.mem_cons_of_mem f hx))
    have hcf := hc f (List.mem_cons_self f rest)
    by_cases hsn : note_filename (strip_ext f.base) ∈ seen
    · have hb : f.base ∈ seen := hcf.1 ▸ hsn
      refine ⟨ops, ?_, ?_, ?_⟩
      · simp [addNewNotes, hsn, hok]
      · simp only [List.map_cons]
        rw [List.filter_cons_of_neg (by simp [hb])]
        exact hkeys
      · simp only [List.map_cons]
        rw [List.filter_cons_of_neg (by simp [hb])]
        exact hadds
    · have hb : ¬ f.base ∈ seen := fun hbb => hsn (by rw [hcf.1]; exact hbb)
      obtain ⟨e', he', hkeye⟩ := add_note_ok files root f.base hcf f
        (hmem f (List.mem_cons_self f rest)) rfl
      refine ⟨.upd e' :: ops, ?_, ?_, ?_⟩
      · simp [addNewNotes, hsn, he', hok]
      · simp only [List.map_cons]
        rw [List.filter_cons_of_pos (by simp [hb])]
        simp [wopKey, hkeys, hkeye]
      · simp only [List.map_cons]
        rw [List.filter_cons_of_pos (by simp [hb])]
        simp [wopAdd, hadds, hkeye]

/-- The three entry classes partition the seen entries: kept-untouched
plus re-indexed equals seen. -/
theorem length_filter_class_split (files : List NFile) (idx : List Entry) :
    (idx.filter (fun e => !(entryOpB files e))).length
      + (idx.filter (entryUpdB files)).length
      = (idx.filter (entrySeenB files)).length := by
  induction idx with
  | nil => rfl
  | cons e rest ih =>
    cases hcl : entryClass files e with
    | none =>
      rw [List.filter_cons_of_neg (by simp [entryOpB, hcl]),
        List.filter_cons_of_neg (by simp [entryUpdB, hcl]),
        List.filter_cons_of_neg (by simp [entrySeenB, hcl])]
      exact ih
    | some b =>
      cases b
      · rw [List.filter_cons_of_neg (by simp [entryOpB, hcl]),
          List.filter_cons_of_pos (by simp [entryUpdB, hcl]),
          List.filter_cons_of_pos (by simp [entrySeenB, hcl])]
        simp only [List.length_cons]
        omega
      · rw [List.filter_cons_of_pos (by simp [entryOpB, hcl]),
          List.filter_cons_of_neg (by simp [entryUpdB, hcl]),
          List.filter_cons_of_pos (by simp [entrySeenB, hcl])]
        simp only [List.length_cons]
        omega

theorem entryOpB_eq_false_iff (files : List NFile) (e : Entry) :
    entryOpB files e = false ↔ entryClass files e = some true := by
  unfold entryOpB
  cases h : entryClass files e with
  | none => simp
  | some b => cases b <;> simp

/-- C1 amended (core): on well-formed input — every note basename clean
and pairwise distinct, every committed key clean with at most one entry
per key — `update_index` succeeds and the committed result has exactly
one entry per note file. -/
theorem update_index_entry_count (files : List NFile) (root : Str)
    (idx : List Entry)
    (hifc : ∀ e ∈ idx, CleanName e.filename)
    (hffc : ∀ f ∈ files, CleanName f.base)
    (hind : (idx.map Entry.filename).Nodup)
    (hbnd : (files.map NFile.base).Nodup) :
    ∃ idx', update_index files root idx false = .ok idx'
      ∧ idx'.length = files.length := by
  obtain ⟨ops1, seen, hok1, hseen, hkeys1, hadds1⟩ :=
    syncEntries_ok files root idx hifc
  have hgn := get_notes_ok files hffc
  obtain ⟨ops2, hok2, hkeys2, hadds2⟩ :=
    addNewNotes_ok files root seen files hffc (fun _ hf => hf)
  refine ⟨commitOps idx (ops1 ++ ops2) false, ?_, ?_⟩
  · simp [update_index, hok1, hgn, hok2]
  · have hlen : (commitOps idx (ops1 ++ ops2) false).length =
        (idx.filter
          (fun e => !(decide (e.filename ∈ (ops1 ++ ops2).map wopKey)))).length
        + ((ops1.filterMap wopAdd).length + (ops2.filterMap wopAdd).length) := by
      simp [commitOps, List.filterMap_append]
    -- An entry's key is touched by the session exactly when the entry
    -- loop buffered an operation for it.
    have hsurv : idx.filter
          (fun e => !(decide (e.filename ∈ (ops1 ++ ops2).map wopKey)))
        = idx.filter (fun e => !(entryOpB files e)) := by
      apply List.filter_congr
      intro e he
      congr 1
      by_cases hop : entryOpB files e = true
      · rw [hop]
        simp only [decide_eq_true_eq]
        rw [List.map_append, List.mem_append]
        left
        rw [hkeys1]
        exact List.mem_map.mpr ⟨e, List.mem_filter.mpr ⟨he, hop⟩, rfl⟩
      · have hopf : entryOpB files e = false := by
          cases h : entryOpB files e
          · rfl
          · exact absurd h hop
        have hcl : entryClass files e = some true :=
          (entryOpB_eq_false_iff files e).mp hopf
        rw [hopf]
        apply decide_eq_false
        intro hmemk
        rw [List.map_append, List.mem_append] at hmemk
        rcases hmemk with h1 | h2
        · rw [hkeys1] at h1
          obtain ⟨e', he'm, he'f⟩ := List.mem_map.mp h1
          have he'mem : e' ∈ idx := List.mem_of_mem_filter he'm
          have he'p : entryOpB files e' = true := List.of_mem_filter he'm
          have hee : e' = e := List.inj_on_of_nodup_map hind he'mem he he'f
          rw [hee, hopf] at he'p
          exact absurd he'p (by decide)
        · rw [hkeys2] at h2
          have h2' := List.of_mem_filter h2
          have hnotseen : ¬ e.filename ∈ seen := by simpa using h2'
          apply hnotseen
          rw [hseen]
          exact List.mem_map.mpr
            ⟨e, List.mem_filter.mpr ⟨he, by simp [entrySeenB, hcl]⟩, rfl⟩
    have hA : (idx.filter
          (fun e => !(decide (e.filename ∈ (ops1 ++ ops2).map wopKey)))).length
        = (idx.filter (fun e => !(entryOpB files e))).length := by
      rw [hsurv]
    have hB : (ops1.filterMap wopAdd).length =
        (idx.filter (entryUpdB files)).length := by
      have hc := congrArg List.length hadds1
      simpa using hc
    have hC : (ops2.filterMap wopAdd).length =
        ((files.map NFile.base).filter (fun b => !(decide (b ∈ seen)))).length := by
      have hc := congrArg List.length hadds2
      simpa using hc
    have hclass := length_filter_class_split files idx
    have hseenlen : seen.length = (idx.filter (entrySeenB files)).length := by
      rw [hseen]; simp
    have hseen_nodup : seen.Nodup := by
      rw [hseen]
      exact List.Nodup.sublist ((List.filter_sublist idx).map Entry.filename) hind
    have hD : ((files.map NFile.base).filter
          (fun b => decide (b ∈ seen))).length = seen.length := by
      have hnd1 : ((files.map NFile.base).filter
          (fun b => decide (b ∈ seen))).Nodup := hbnd.filter _
      have hiff : ∀ b, b ∈ (files.map NFile.base).filter
          (fun b => decide (b ∈ seen)) ↔ b ∈ seen := by
        intro b
        constructor
        · intro hb
          have hb' := List.of_mem_filter hb
          simpa using hb'
        · intro hb
          apply List.mem_filter.mpr
          refine ⟨?_, by simpa using hb⟩
          rw [hseen] at hb
          obtain ⟨e, hef, hbe⟩ := List.mem_map.mp hb
          have hseenB : entrySeenB files e = true := List.of_mem_filter hef
          unfold entrySeenB entryClass at hseenB
          cases hft : findTopLevel files e.filename with
          | none => rw [hft] at hseenB; simp at hseenB
          | some f =>
            have hfm : f ∈ files := List.mem_of_find?_eq_some hft
            have hfb : f.base = e.filename := by
              have hp := List.find?_some hft
              simp only [Bool.and_eq_true, decide_eq_true_eq] at hp
              exact hp.2
            exact List.mem_map.mpr ⟨f, hfm, by rw [hfb, hbe]⟩
      exact ((List.perm_ext_iff_of_nodup hnd1 hseen_nodup).mpr hiff).length_eq
    have hsplit2 : (files.map NFile.base).length =
        ((files.map NFile.base).filter (fun b => decide (b ∈ seen))).length
        + ((files.map NFile.base).filter (fun b => !(decide (b ∈ seen)))).length := by
      simpa using List.length_eq_length_filter_add
        (l := files.map NFile.base) (fun b : Str => decide (b ∈ seen))
    have hmaplen : (files.map NFile.base).length = files.length :=
      List.length_map _ _
    omega

/-- C1 witness: two notes with distinct basenames (one in a
subdirectory), empty committed index — synchronization succeeds with one
entry per file. -/
theorem update_index_entry_count_witness :
    ∃ idx', update_index
        [⟨[], "a.md".toList, "hi #tag".toList, 3⟩,
          ⟨["d".toList], "b.md".toList, "yo".toList, 7⟩]
        "notes".toList [] false = .ok idx'
      ∧ idx'.length = 2 :=
  update_index_entry_count _ _ _ (by decide) (by decide) (by decide) (by decide)

/-- C1 counterexample: one committed entry for the unchanged top-level
note `x.md`, plus a second note `a/x.md` sharing the basename: after
`update_index` the index holds 1 entry while the note store holds 2
files — the key is already marked seen, so the subdirectory note is
never indexed. -/
theorem update_index_count_counterexample :
    (update_index
        [⟨[], "x.md".toList, [], 5⟩, ⟨["a".toList], "x.md".toList, [], 0⟩]
        "notes".toList
        [⟨"x.md".toList, 5, "x".toList, [], ∅⟩] false).map List.length
      = .ok 1
    ∧ ([⟨[], "x.md".toList, [], 5⟩,
        ⟨["a".toList], "x.md".toList, [], 0⟩] : List NFile).length = 2 :=
  ⟨by decide, by decide⟩

/-- C6 amended: during synchronization, for an entry with a clean
filename: it is deleted exactly when **no top-level file** of the notes
directory carries the entry's filename (the code checks
`os.path.join(dir, filename)`, not existence anywhere in the note
store); when the top-level file exists with an unchanged modification
time the entry is left unmodified; when the modification time differs
the entry is fully replaced by an upsert rebuilt (content, title, tags,
last_modified) from the note that the filename scan resolves. -/
theorem syncEntry_spec (files : List NFile) (root : Str) (e : Entry)
    (hc : CleanName e.filename) :
    (findTopLevel files e.filename = none ↔
      syncEntry files root e = .ok (some (.del e.filename), none))
    ∧ (∀ f, findTopLevel files e.filename = some f →
        f.mtime = e.last_modified →
          syncEntry files root e = .ok (none, some e.filename))
    ∧ (∀ f, findTopLevel files e.filename = some f →
        f.mtime ≠ e.last_modified →
          ∃ g, resolveNote files root e.filename = some g ∧
            syncEntry files root e = .ok
              (some (.upd ⟨e.filename, g.mtime, strip_ext e.filename,
                (extract_tags g.content).1, (extract_tags g.content).2⟩),
                some e.filename)) := by
  refine ⟨⟨?_, ?_⟩, ?_, ?_⟩
  · intro h
    unfold syncEntry
    rw [h]
  · intro h
    cases hft : findTopLevel files e.filename with
    | none => rfl
    | some f =>
      exfalso
      unfold syncEntry at h
      rw [hft] at h
      by_cases hm : f.mtime = e.last_modified
      · simp [hm] at h
      · cases han : add_note_to_index files root (strip_ext e.filename) with
        | error err => simp [hm, hc.2, han] at h
        | ok op => simp [hm, hc.2, han] at h
  · intro f hft hm
    unfold syncEntry
    rw [hft]
    simp [hm]
  · intro f hft hm
    have hfm : f ∈ files := List.mem_of_find?_eq_some hft
    have hfb : f.base = e.filename := by
      have hp := List.find?_some hft
      simp only [Bool.and_eq_true, decide_eq_true_eq] at hp
      exact hp.2
    obtain ⟨g, hg⟩ := Option.isSome_iff_exists.mp
      (resolveNote_isSome_of_base files root e.filename f hfm hfb)
    refine ⟨g, hg, ?_⟩
    have han : add_note_to_index files root (strip_ext e.filename) =
        .ok (.upd ⟨e.filename, g.mtime, strip_ext e.filename,
          (extract_tags g.content).1, (extract_tags g.content).2⟩) := by
      unfold add_note_to_index
      rw [hc.1, hg]
    unfold syncEntry
    rw [hft]
    simp [hm, hc.2, han]

/-- C6 witness: a top-level note with an unchanged modification time is
left unmodified by the entry loop. -/
theorem syncEntry_spec_witness :
    syncEntry [⟨[], "x.md".toList, [], 5⟩] "notes".toList
        ⟨"x.md".toList, 5, "x".toList, [], ∅⟩
      = .ok (none, some "x.md".toList) :=
  (syncEntry_spec [⟨[], "x.md".toList, [], 5⟩] "notes".toList
      ⟨"x.md".toList, 5, "x".toList, [], ∅⟩ (by decide)).2.1
    ⟨[], "x.md".toList, [], 5⟩ (by decide) (by decide)

/-- C6 counterexample: the entry's note file exists in the note store —
at `sub/x.md`, with the stored modification time — yet the entry loop
deletes the entry, because the existence check looks only at the
top-level path `notes/x.md`. -/
theorem syncEntry_deletes_existing_counterexample :
    syncEntry [⟨["sub".toList], "x.md".toList, [], 5⟩] "notes".toList
        ⟨"x.md".toList, 5, "x".toList, [], ∅⟩
      = .ok (some (.del "x.md".toList), none)
    ∧ ∃ f ∈ ([⟨["sub".toList], "x.md".toList, [], 5⟩] : List NFile),
        f.base = "x.md".toList :=
  ⟨by decide, by decide⟩

theorem addKeys_sublist (ops : List WOp) :
    ((ops.filterMap wopAdd).map Entry.filename).Sublist (ops.map wopKey) := by
  induction ops with
  | nil => exact List.Sublist.refl []
  | cons op rest ih =>
    cases op with
    | del k =>
      simp only [List.filterMap_cons, wopAdd, List.map_cons, wopKey]
      exact ih.cons k
    | upd e =>
      simp only [List.filterMap_cons, wopAdd, List.map_cons, wopKey]
      exact ih.cons₂ e.filename

/-- C9 amended: committing a single upsert leaves exactly the new entry
under its key (every previously committed entry with that key is
replaced, never duplicated); and a writer session whose buffered
operations touch pairwise distinct keys preserves
at-most-one-entry-per-key.  What the source does **not** guarantee is
uniqueness across two upserts of one key inside the same session (the
counterexample): whoosh's `update_document` only replaces committed
documents. -/
theorem commit_upsert_unique :
    (∀ (idx : List Entry) (e : Entry),
      (commitOps idx [.upd e] false).filter
        (fun x => decide (x.filename = e.filename)) = [e])
    ∧ (∀ (idx : List Entry) (ops : List WOp) (clean : Bool),
        (idx.map Entry.filename).Nodup → (ops.map wopKey).Nodup →
          ((commitOps idx ops clean).map Entry.filename).Nodup) := by
  constructor
  · intro idx e
    show ((idx.filter _) ++ _).filter _ = [e]
    rw [List.filter_append, List.filter_filter]
    have h1 : idx.filter (fun a =>
        decide (a.filename = e.filename)
          && !(decide (a.filename ∈ ([WOp.upd e].map wopKey)))) = [] := by
      rw [List.filter_congr (q := fun _ => false) ?_, List.filter_false]
      intro x _
      by_cases hx : x.filename = e.filename
      · simp [hx, wopKey]
      · simp [hx]
    rw [h1]
    simp [wopAdd]
  · intro idx ops clean hidx hops
    have hadds_nd : ((ops.filterMap wopAdd).map Entry.filename).Nodup :=
      List.Nodup.sublist (addKeys_sublist ops) hops
    cases clean with
    | true => simpa [commitOps] using hadds_nd
    | false =>
      show ((idx.filter _ ++ _).map Entry.filename).Nodup
      rw [List.map_append]
      refine List.Nodup.append ?_ hadds_nd ?_
      · exact List.Nodup.sublist
          ((List.filter_sublist idx).map Entry.filename) hidx
      · intro a ha hb
        obtain ⟨x, hx, hxf⟩ := List.mem_map.mp ha
        have hxnot : ¬ x.filename ∈ ops.map wopKey := by
          simpa using List.of_mem_filter hx
        apply hxnot
        rw [hxf]
        exact (addKeys_sublist ops).subset hb

/-- C9 witness: committing one upsert over a distinct-key index keeps
keys unique. -/
theorem commit_upsert_unique_witness :
    ((commitOps [⟨"a.md".toList, 1, "a".toList, [], ∅⟩]
        [.upd ⟨"b.md".toList, 2, "b".toList, [], ∅⟩] false).map
      Entry.filename).Nodup :=
  commit_upsert_unique.2 _ _ false (by decide) (by decide)

/-- C9 counterexample: two notes `a/x.md` and `b/x.md` share a basename;
synchronizing them into an empty index issues two `update_document`
calls for the key `x.md` in one writer session, and the committed index
holds **two** entries with that key. -/
theorem commit_duplicate_key_counterexample :
    (update_index
        [⟨["a".toList], "x.md".toList, [], 0⟩,
          ⟨["b".toList], "x.md".toList, [], 0⟩]
        "notes".toList [] false).map (fun l => l.map Entry.filename)
      = .ok ["x.md".toList, "x.md".toList] := by
  decide

/-- C3 (code bug): every tag-listing call raises `AttributeError` before
doing anything: `get_tags` invokes `self.update_index_debounced()`, but
no attribute of that name is defined anywhere on `Flatnotes`, so no
synchronization happens and no tag set is ever returned — contradicting
the source's own docstring and the spec. -/
theorem get_tags_always_raises (files : List NFile) (root : Str)
    (idx : List Entry) :
    get_tags files root idx = .error .attributeError := by
  rfl

end Flatnotes

